import Mathlib

/-!
Verification of the ingestion-and-reconciliation pipeline of
`scripts/generate_index.py`: the Debian `Packages` stanza parser, the
package builder, the repository scanner and the deduplication/merge
engine, shallowly embedded as executable Lean definitions, with proofs
of the specification's claims about them.
-/

namespace AptIndex

/-! ## Python string primitives (ASCII fragment used by the script) -/

/-- Characters treated as whitespace by Python's `str.strip` family. -/
def pySpace (c : Char) : Bool :=
  c = ' ' || c = '\t' || c = '\n' || c = '\r' || c = '\x0b' || c = '\x0c'

/-- Python `str.rstrip()`: remove trailing whitespace. -/
def pyRstrip (s : String) : String :=
  String.mk ((s.data.reverse.dropWhile pySpace).reverse)

/-- Python `str.lstrip()`: remove leading whitespace. -/
def pyLstrip (s : String) : String :=
  String.mk (s.data.dropWhile pySpace)

/-- Python `str.strip()`: remove whitespace on both ends. -/
def pyStrip (s : String) : String := pyLstrip (pyRstrip s)

/-- Python `line.startswith((' ', '\t'))`. -/
def startsWithSpaceTab (s : String) : Bool :=
  match s.data with
  | [] => false
  | c :: _ => c = ' ' || c = '\t'

/-- Python `name.startswith('.')`. -/
def startsWithDot (s : String) : Bool :=
  match s.data with
  | [] => false
  | c :: _ => c = '.'

/-- Python `':' in line`. -/
def containsColon (s : String) : Bool := s.data.contains ':'

/-- Python `line.partition(':')`, returning the parts before and after
the first colon (the separator itself dropped). Only used on lines that
contain a colon. -/
def partitionColon (s : String) : String × String :=
  (String.mk (s.data.takeWhile (fun c => c ≠ ':')),
   String.mk ((s.data.dropWhile (fun c => c ≠ ':')).drop 1))

/-- Python `str.title()` (ASCII): uppercase a letter that follows a
non-letter, lowercase a letter that follows a letter. -/
def titleChars : List Char → Bool → List Char
  | [], _ => []
  | c :: rest, prevCased =>
    if c.isAlpha then (if prevCased then c.toLower else c.toUpper) :: titleChars rest true
    else c :: titleChars rest false

def pyTitle (s : String) : String := String.mk (titleChars s.data false)

/-! ## Field mappings (`current_package` dict in the parser)

A Python dict from field name to field value, modelled as an
insertion-ordered association list: lookup finds the first (unique)
binding, insertion overwrites in place or appends at the end. -/

abbrev FieldMap := List (String × String)

def fmLookup : FieldMap → String → Option String
  | [], _ => none
  | (k2, v) :: rest, k => if k2 = k then some v else fmLookup rest k

/-- Python `k in current_package`. -/
def fmHas (m : FieldMap) (k : String) : Bool := (fmLookup m k).isSome

/-- Python `current_package[key] = value`. -/
def fmInsert : FieldMap → String → String → FieldMap
  | [], k, v => [(k, v)]
  | (k2, v2) :: rest, k, v =>
    if k2 = k then (k2, v) :: rest else (k2, v2) :: fmInsert rest k v

/-- Python `current_package[last_key] += ' ' + frag`. -/
def fmAppendTo : FieldMap → String → String → FieldMap
  | [], _, _ => []
  | (k2, v2) :: rest, k, frag =>
    if k2 = k then (k2, v2 ++ " " ++ frag) :: rest
    else (k2, v2) :: fmAppendTo rest k frag

/-! ## Data model -/

/-- The `Package` dataclass. -/
structure Package where
  name : String
  version : String
  description : String
  architecture : String
  filename : String
  component : String
  all_architectures : List String
deriving DecidableEq, Repr

/-- The dataclass constructor including `__post_init__`: an empty
`all_architectures` argument (the dataclass default) is replaced by the
singleton list of the primary architecture. -/
def Package.make (name version description architecture filename component : String)
    (allArchitectures : List String) : Package :=
  { name := name, version := version, description := description,
    architecture := architecture, filename := filename, component := component,
    all_architectures :=
      if allArchitectures.isEmpty then [architecture] else allArchitectures }

/-- The `Distribution` dataclass. -/
structure Distribution where
  name : String
  display_name : String
  description : String
  packages : List Package
deriving DecidableEq, Repr

/-! ## Stanza parser (`parse_packages_file`) -/

def requiredFields : List String := ["Package", "Version", "Description", "Filename"]

/-- `all(k in current_package for k in ['Package', 'Version', 'Description', 'Filename'])`. -/
def hasRequired (m : FieldMap) : Bool := requiredFields.all (fun k => fmHas m k)

/-- The `Package(...)` construction performed at the two emission points
of `parse_packages_file`. -/
def buildPackage (m : FieldMap) (component : String) : Package :=
  Package.make ((fmLookup m "Package").getD "") ((fmLookup m "Version").getD "")
    ((fmLookup m "Description").getD "") ((fmLookup m "Architecture").getD "unknown")
    ((fmLookup m "Filename").getD "") component []

/-- Loop state of `parse_packages_file`: the packages emitted so far,
the stanza in progress and `last_key`. -/
structure ParseState where
  packages : List Package
  current : FieldMap
  lastKey : Option String
deriving DecidableEq, Repr

/-- Python's truthiness test `if ... and last_key:` — `None` and the
empty string are falsy. -/
def lastKeyTruthy : Option String → Bool
  | none => false
  | some k => !(k == "")

/-- One iteration of the `for line in f` loop of `parse_packages_file`. -/
def processLine (component : String) (st : ParseState) (rawLine : String) : ParseState :=
  let line := pyRstrip rawLine
  if line = "" then
    if st.current.isEmpty then st
    else if hasRequired st.current then
      { packages := st.packages ++ [buildPackage st.current component],
        current := [], lastKey := none }
    else { st with current := [], lastKey := none }
  else if startsWithSpaceTab line && lastKeyTruthy st.lastKey then
    { st with current := fmAppendTo st.current (st.lastKey.getD "") (pyStrip line) }
  else if containsColon line then
    let p := partitionColon line
    let key := pyStrip p.1
    { st with current := fmInsert st.current key (pyStrip p.2), lastKey := some key }
  else st

/-- The trailing flush after the loop (`# Handle last package if file
doesn't end with blank line`). -/
def finalize (component : String) (st : ParseState) : List Package :=
  if !st.current.isEmpty && hasRequired st.current then
    st.packages ++ [buildPackage st.current component]
  else st.packages

/-- `parse_packages_file` on the lines of an existing file. -/
def parsePackagesLines (lines : List String) (component : String) : List Package :=
  finalize component (lines.foldl (processLine component) ⟨[], [], none⟩)

/-- `parse_packages_file` on a possibly missing file: `FileNotFoundError`
is swallowed and yields the empty list. -/
def parse_packages_file (file : Option (List String)) (component : String) : List Package :=
  match file with
  | none => []
  | some lines => parsePackagesLines lines component

/-! ## Architecture preference and sorting helpers -/

def SUPPORTED_ARCHITECTURES : List String := ["arm64", "armhf", "all"]

/-- `preference = {'all': 0, 'armhf': 1, 'arm64': 2}` with
`preference.get(arch, 1)`. -/
def preference (arch : String) : Nat :=
  if arch = "all" then 0
  else if arch = "armhf" then 1
  else if arch = "arm64" then 2
  else 1

/-- `get_preferred_architecture`. -/
def get_preferred_architecture (arch1 arch2 : String) : String :=
  if preference arch1 ≥ preference arch2 then arch1 else arch2

/-- Comparison by a key function, as used by Python's `sort(key=...)`. -/
def keyLe {α β : Type} [LinearOrder β] (key : α → β) (a b : α) : Prop := key a ≤ key b

instance {α β : Type} [LinearOrder β] (key : α → β) : DecidableRel (keyLe key) :=
  fun a b => inferInstanceAs (Decidable (key a ≤ key b))

/-- Python's stable `list.sort(key=...)` / `sorted(..., key=...)`.
Insertion sort is stable, and any stable sort by a total preorder
produces the same list, so this is extensionally the sort Python runs. -/
def sortByKey {α β : Type} [LinearOrder β] (key : α → β) (l : List α) : List α :=
  List.insertionSort (keyLe key) l

/-- Python's string comparison: lexicographic by code point, i.e. the
lexicographic order on the character list. -/
def strKey (s : String) : List Char := s.data

/-! ## Deduplication / merge engine (loop body in `scan_distributions`) -/

/-- The grouping key `(pkg.name, pkg.component)`. -/
def keyOf (p : Package) : String × String := (p.name, p.component)

/-- The `print(f"Warning: ...", file=sys.stderr)` diagnostic text. -/
def warnMsg (existing pkg : Package) : String :=
  "Warning: Package " ++ pkg.name ++ " has different versions across architectures: " ++
    existing.architecture ++ "=" ++ existing.version ++ ", " ++
    pkg.architecture ++ "=" ++ pkg.version

/-- Folding one further record into the running record for its key:
architecture-set union (kept sorted) and primary-architecture
recomputation. All other fields are left untouched. -/
def merge1 (existing pkg : Package) : Package :=
  let archs :=
    if existing.all_architectures.contains pkg.architecture then existing.all_architectures
    else sortByKey strKey (existing.all_architectures ++ [pkg.architecture])
  { existing with
    all_architectures := archs,
    architecture := get_preferred_architecture existing.architecture pkg.architecture }

/-- The `unique_packages` dict: insertion-ordered association table
keyed by `(name, component)`, plus the warnings printed so far. -/
structure MergeAcc where
  table : List ((String × String) × Package)
  warnings : List String
deriving DecidableEq, Repr

def tableLookup : List ((String × String) × Package) → String × String → Option Package
  | [], _ => none
  | (k2, p) :: rest, k => if k2 = k then some p else tableLookup rest k

def tableUpdate : List ((String × String) × Package) → String × String → Package →
    List ((String × String) × Package)
  | [], _, _ => []
  | (k2, p2) :: rest, k, p =>
    if k2 = k then (k2, p) :: rest else (k2, p2) :: tableUpdate rest k p

/-- One iteration of the deduplication loop over `all_packages`. -/
def accInsert (acc : MergeAcc) (pkg : Package) : MergeAcc :=
  let key := keyOf pkg
  match tableLookup acc.table key with
  | none => { acc with table := acc.table ++ [(key, pkg)] }
  | some existing =>
    { table := tableUpdate acc.table key (merge1 existing pkg),
      warnings :=
        if pkg.version ≠ existing.version then acc.warnings ++ [warnMsg existing pkg]
        else acc.warnings }

/-- The whole deduplication loop. -/
def dedup (pkgs : List Package) : MergeAcc := pkgs.foldl accInsert ⟨[], []⟩

/-! ## Catalog model derived properties -/

/-- `Distribution.package_count`: number of distinct package names. -/
def Distribution.package_count (d : Distribution) : Nat :=
  ((d.packages.map Package.name).eraseDups).length

/-- `Distribution.components`: distinct components present, known ones
first in preferred order, the rest sorted; falls back to `['main']`. -/
def Distribution.components (d : Distribution) : List String :=
  let found := (d.packages.map Package.component).eraseDups
  let ordered := ["main", "hatlabs"].filter (fun c => found.contains c)
  let all := ordered ++
    sortByKey strKey (found.filter (fun c => !(["main", "hatlabs"].contains c)))
  if all.isEmpty then ["main"] else all

/-! ## Repository scanner (`scan_distributions`)

The directory tree the scanner walks is modelled structurally: a
repository root records whether `dists` exists and its entries; a
distribution entry records its directory entries; a directory entry of a
distribution records the `binary-<arch>` subdirectories it contains and,
for each, the content of its `Packages` file when that file exists. -/

/-- An existing `binary-<arch>` subdirectory of a component directory. -/
structure BinaryDir where
  arch : String
  packagesFile : Option (List String)
deriving DecidableEq, Repr

/-- A directory entry inside a distribution directory. -/
structure DistItem where
  name : String
  isDir : Bool
  binaryDirs : List BinaryDir
deriving DecidableEq, Repr

/-- A directory entry inside `dists`. -/
structure DistEntry where
  name : String
  isDir : Bool
  items : List DistItem
deriving DecidableEq, Repr

/-- The repository root. -/
structure RepoDir where
  distsExists : Bool
  distEntries : List DistEntry
deriving DecidableEq, Repr

/-- `get_distribution_info`. -/
def get_distribution_info (dist_name : String) : String × String :=
  if dist_name = "stable" then
    ("Stable", "Hat Labs product packages (stable releases)")
  else if dist_name = "unstable" then
    ("Unstable", "Hat Labs product packages (rolling, latest from main)")
  else if dist_name = "bookworm-stable" then
    ("Bookworm Stable", "Halos packages for Debian Bookworm (stable releases)")
  else if dist_name = "bookworm-unstable" then
    ("Bookworm Unstable", "Halos packages for Debian Bookworm (rolling)")
  else if dist_name = "trixie-stable" then
    ("Trixie Stable", "Halos packages for Debian Trixie (stable releases)")
  else if dist_name = "trixie-unstable" then
    ("Trixie Unstable", "Halos packages for Debian Trixie (rolling)")
  else (pyTitle dist_name, dist_name ++ " distribution")

def known_components : List String := ["main", "hatlabs"]

/-- The component detection rule: a non-hidden directory containing a
`binary-<arch>` subdirectory for some supported architecture. -/
def itemIsComponent (it : DistItem) : Bool :=
  it.isDir && !startsWithDot it.name &&
    SUPPORTED_ARCHITECTURES.any (fun arch => it.binaryDirs.any (fun b => b.arch == arch))

def discoverComponents (items : List DistItem) : List String :=
  (items.filter itemIsComponent).map DistItem.name

/-- `component_sort_key`: Python's `(0, known_components.index(c))` for
known components and `(1, c)` for others, compared lexicographically —
encoded as a lexicographic sum so that all index keys precede all string
keys. -/
def componentKey (c : String) : Nat ⊕ₗ List Char :=
  match known_components.findIdx? (fun k => k == c) with
  | some i => toLex (Sum.inl i)
  | none => toLex (Sum.inr (strKey c))

/-- Content of `dists/<dist>/<component>/binary-<arch>/Packages`, when
the component directory and that file exist. -/
def packagesFileFor (items : List DistItem) (component arch : String) : Option (List String) :=
  match items.find? (fun it => it.name == component) with
  | none => none
  | some it =>
    match it.binaryDirs.find? (fun b => b.arch == arch) with
    | none => none
    | some b => b.packagesFile

/-- Body of the architecture loop inside `scan_distributions`: parse
`binary-<arch>/Packages` when it exists, else contribute nothing. -/
def collectArchStep (items : List DistItem) (component : String)
    (acc2 : List Package) (arch : String) : List Package :=
  match packagesFileFor items component arch with
  | some lines => acc2 ++ parsePackagesLines lines component
  | none => acc2

/-- Body of the component loop inside `scan_distributions`. -/
def collectCompStep (items : List DistItem) (acc : List Package) (component : String) :
    List Package :=
  SUPPORTED_ARCHITECTURES.foldl (collectArchStep items component) acc

/-- The collection loop: for each component (in canonical order) and each
supported architecture, parse the `Packages` file if it exists. -/
def collectPackages (items : List DistItem) (components : List String) : List Package :=
  components.foldl (collectCompStep items) []

/-- The sort key `lambda p: (p.component, p.name)` (lexicographic). -/
def pkgSortKey (p : Package) : List Char ×ₗ List Char :=
  toLex (strKey p.component, strKey p.name)

/-- Processing of one distribution directory inside `scan_distributions`. -/
def scanDistEntry (e : DistEntry) : Distribution :=
  { name := e.name,
    display_name := (get_distribution_info e.name).1,
    description := (get_distribution_info e.name).2,
    packages := sortByKey pkgSortKey
      ((dedup (collectPackages e.items
          (sortByKey componentKey (discoverComponents e.items)))).table.map
        (fun kp => kp.2)) }

/-- `scan_distributions`: distribution directories are visited in sorted
name order, non-directories skipped; a missing `dists` directory yields
the empty catalog. -/
def scan_distributions (repo : RepoDir) : List Distribution :=
  if repo.distsExists then
    ((sortByKey (fun e => strKey e.name) repo.distEntries).filter (fun e => e.isDir)).map
      scanDistEntry
  else []

/-! ## General facts about `sortByKey` -/

instance {α β : Type} [LinearOrder β] (key : α → β) : IsTotal α (keyLe key) :=
  ⟨fun a b => le_total (key a) (key b)⟩

instance {α β : Type} [LinearOrder β] (key : α → β) : IsTrans α (keyLe key) :=
  ⟨fun _ _ _ h1 h2 => le_trans h1 h2⟩

theorem sortByKey_perm {α β : Type} [LinearOrder β] (key : α → β) (l : List α) :
    List.Perm (sortByKey key l) l :=
  List.perm_insertionSort _ l

theorem mem_sortByKey {α β : Type} [LinearOrder β] {key : α → β} {l : List α} {a : α} :
    a ∈ sortByKey key l ↔ a ∈ l :=
  (sortByKey_perm key l).mem_iff

theorem sortByKey_sorted {α β : Type} [LinearOrder β] (key : α → β) (l : List α) :
    (sortByKey key l).Sorted (keyLe key) :=
  List.sorted_insertionSort _ l

/-! ## Claim C2: architecture preference -/

theorem preference_pos (a : String) (ha : a ≠ "all") : 0 < preference a := by
  simp only [preference, if_neg ha]
  split_ifs <;> omega

/-- C2: `get_preferred_architecture` ranks the generic marker `"all"`
strictly below every other architecture, ranks `arm64` above `armhf`,
gives every architecture outside the table the middle priority `1`, and
keeps the existing (first-argument) value on a priority tie; hence a
package seeded from a generic-marker record and merged with a record of
a specific architecture gets that specific architecture as primary, with
`all_architectures` containing both, sorted. -/
theorem c2_architecture_preference :
    (∀ a : String, a ≠ "all" → preference "all" < preference a) ∧
    preference "armhf" < preference "arm64" ∧
    (∀ a : String, a ≠ "all" → a ≠ "armhf" → a ≠ "arm64" →
      preference a = 1 ∧ preference "all" < preference a ∧ preference a < preference "arm64") ∧
    (∀ a b : String, preference a = preference b → get_preferred_architecture a b = a) ∧
    (∀ e q : Package, e.architecture = "all" → e.all_architectures = ["all"] →
      q.architecture ≠ "all" →
      (merge1 e q).architecture = q.architecture ∧
      q.architecture ∈ (merge1 e q).all_architectures ∧
      "all" ∈ (merge1 e q).all_architectures ∧
      (merge1 e q).all_architectures.Sorted (keyLe strKey)) := by
  refine ⟨?_, by decide, ?_, ?_, ?_⟩
  · intro a ha
    have h0 : preference "all" = 0 := rfl
    rw [h0]
    exact preference_pos a ha
  · intro a h1 h2 h3
    have : preference a = 1 := by simp [preference, if_neg h1, if_neg h2, if_neg h3]
    refine ⟨this, ?_, ?_⟩ <;> rw [this] <;> decide
  · intro a b h
    simp only [get_preferred_architecture, if_pos h.ge]
  · intro e q h1 h2 h3
    have hc : e.all_architectures.contains q.architecture = false := by
      rw [h2]
      simpa using h3
    have hpref : get_preferred_architecture e.architecture q.architecture = q.architecture := by
      have hq := preference_pos q.architecture h3
      have h0 : preference e.architecture = 0 := by rw [h1]; decide
      simp only [get_preferred_architecture, h0]
      rw [if_neg (by omega)]
    have hc2 : (["all"] : List String).contains q.architecture = false := by simpa using h3
    refine ⟨?_, ?_, ?_, ?_⟩
    · simp only [merge1, hpref]
    · simp only [merge1, h2, hc2, Bool.false_eq_true, if_false]
      rw [mem_sortByKey]
      simp
    · simp only [merge1, h2, hc2, Bool.false_eq_true, if_false]
      rw [mem_sortByKey]
      simp
    · simp only [merge1, h2, hc2, Bool.false_eq_true, if_false]
      exact sortByKey_sorted _ _

/-- Closed witness for C2: a record seeded under the generic marker
merged with an `arm64` record. -/
theorem c2_architecture_preference_witness :
    ((Package.make "foo" "1" "d" "all" "f" "main" []).architecture = "all" ∧
      (Package.make "foo" "1" "d" "all" "f" "main" []).all_architectures = ["all"] ∧
      ("arm64" : String) ≠ "all") ∧
    (merge1 (Package.make "foo" "1" "d" "all" "f" "main" [])
        (Package.make "foo" "1" "d" "arm64" "f" "main" [])).architecture =
      (Package.make "foo" "1" "d" "arm64" "f" "main" []).architecture :=
  ⟨⟨rfl, rfl, by decide⟩,
    (c2_architecture_preference.2.2.2.2
      (Package.make "foo" "1" "d" "all" "f" "main" [])
      (Package.make "foo" "1" "d" "arm64" "f" "main" []) rfl rfl (by decide)).1⟩

/-! ## Claim C1: end-to-end example -/

def exLinesArm64 : List String :=
  ["Package: foo", "Version: 1.2.3", "Architecture: arm64", "Description: does foo",
   "Filename: pool/foo.deb"]

def exLinesAll : List String :=
  ["Package: foo", "Version: 1.2.3", "Architecture: all", "Description: does foo",
   "Filename: pool/foo.deb"]

def exMainItem : DistItem :=
  ⟨"main", true, [⟨"arm64", some exLinesArm64⟩, ⟨"all", some exLinesAll⟩]⟩

def exRepo : RepoDir := ⟨true, [⟨"stable", true, [exMainItem]⟩]⟩

/-- C1: scanning a root whose `dists/stable/main` has the `foo` stanza
under `binary-arm64` and the same stanza with `Architecture: all` under
`binary-all` yields exactly one Distribution named `"stable"` with
exactly one merged package named `"foo"`, primary architecture
`"arm64"` and `all_architectures = ["all", "arm64"]`. -/
theorem c1_end_to_end :
    scan_distributions exRepo =
      [⟨"stable", "Stable", "Hat Labs product packages (stable releases)",
        [⟨"foo", "1.2.3", "does foo", "arm64", "pool/foo.deb", "main", ["all", "arm64"]⟩]⟩] := by
  decide

/-! ## Claim C4: required-field gate -/

theorem hasRequired_nil : hasRequired [] = false := rfl

/-- C4: at both emission points — the blank-line flush and the EOF
flush — a record is appended if and only if all four required fields are
present in the stanza's field mapping; when they are, the appended record
is built from the mapping, and when they are not, the package list is
unchanged. -/
theorem c4_required_field_gate (comp : String) (st : ParseState) (line : String)
    (hblank : pyRstrip line = "") :
    ((processLine comp st line).packages.length = st.packages.length + 1 ↔
      hasRequired st.current = true) ∧
    (hasRequired st.current = true →
      (processLine comp st line).packages = st.packages ++ [buildPackage st.current comp]) ∧
    (hasRequired st.current = false → (processLine comp st line).packages = st.packages) ∧
    ((finalize comp st).length = st.packages.length + 1 ↔ hasRequired st.current = true) ∧
    (hasRequired st.current = true →
      finalize comp st = st.packages ++ [buildPackage st.current comp]) ∧
    (hasRequired st.current = false → finalize comp st = st.packages) := by
  have hemp : st.current.isEmpty = true → hasRequired st.current = false := by
    intro h
    rw [List.isEmpty_iff.mp h, hasRequired_nil]
  by_cases hc : st.current.isEmpty = true
  · have hreq := hemp hc
    simp [processLine, finalize, hblank, hc, hreq]
  · have hc' : st.current.isEmpty = false := by simpa using hc
    by_cases hr : hasRequired st.current = true
    · simp [processLine, finalize, hblank, hc', hr]
    · have hr' : hasRequired st.current = false := by simpa using hr
      simp [processLine, finalize, hblank, hc', hr']

/-- Closed witness for C4 at a concrete incomplete stanza
(`Package: foo`, `Version: 1.0` only) terminated by a blank line. -/
theorem c4_required_field_gate_witness :
    pyRstrip "" = "" ∧
    ((processLine "main" ⟨[], [("Package", "foo"), ("Version", "1.0")], some "Version"⟩
        "").packages.length =
      ([] : List Package).length + 1 ↔
      hasRequired [("Package", "foo"), ("Version", "1.0")] = true) :=
  ⟨rfl,
    (c4_required_field_gate "main"
      ⟨[], [("Package", "foo"), ("Version", "1.0")], some "Version"⟩ "" rfl).1⟩

/-! ## Claim C10: indented `key: value` line with no preceding key -/

/-- C10: a line beginning with a space or tab that contains a colon,
seen while no most-recently-seen key exists, is neither ignored nor
treated as a continuation: it is parsed as a fresh `key: value` field
whose key is the trimmed text before the first colon. -/
theorem c10_indented_line_without_last_key (comp : String) (st : ParseState) (line : String)
    (hlk : st.lastKey = none)
    (hnb : pyRstrip line ≠ "")
    (hws : startsWithSpaceTab (pyRstrip line) = true)
    (hcol : containsColon (pyRstrip line) = true) :
    (processLine comp st line).current =
      fmInsert st.current (pyStrip (partitionColon (pyRstrip line)).1)
        (pyStrip (partitionColon (pyRstrip line)).2) ∧
    (processLine comp st line).lastKey =
      some (pyStrip (partitionColon (pyRstrip line)).1) ∧
    (processLine comp st line).packages = st.packages := by
  simp [processLine, hlk, hnb, hcol, lastKeyTruthy]

/-- Closed witness for C10: the stanza-initial line `" Key: v"`. -/
theorem c10_indented_line_without_last_key_witness :
    (⟨[], [], none⟩ : ParseState).lastKey = none ∧
    pyRstrip " Key: v" ≠ "" ∧
    startsWithSpaceTab (pyRstrip " Key: v") = true ∧
    containsColon (pyRstrip " Key: v") = true ∧
    (processLine "main" ⟨[], [], none⟩ " Key: v").current =
      fmInsert [] (pyStrip (partitionColon (pyRstrip " Key: v")).1)
        (pyStrip (partitionColon (pyRstrip " Key: v")).2) :=
  ⟨rfl, by decide, by decide, by decide,
    (c10_indented_line_without_last_key "main" ⟨[], [], none⟩ " Key: v" rfl (by decide)
      (by decide) (by decide)).1⟩

/-! ## Facts about the merge table and the deduplication fold -/

theorem tableLookup_mem {t : List ((String × String) × Package)} {k : String × String}
    {e : Package} (h : tableLookup t k = some e) : (k, e) ∈ t := by
  induction t with
  | nil => cases h
  | cons kp rest ih =>
    obtain ⟨k2, p⟩ := kp
    rw [tableLookup] at h
    by_cases hk : k2 = k
    · rw [if_pos hk] at h
      cases h
      subst hk
      exact List.mem_cons_self _ _
    · rw [if_neg hk] at h
      exact List.mem_cons_of_mem _ (ih h)

theorem tableLookup_append_of_some {t : List ((String × String) × Package)}
    {k : String × String} {e : Package} (h : tableLookup t k = some e)
    (x : List ((String × String) × Package)) : tableLookup (t ++ x) k = some e := by
  induction t with
  | nil => cases h
  | cons kp rest ih =>
    obtain ⟨k2, p⟩ := kp
    rw [tableLookup] at h
    rw [List.cons_append, tableLookup]
    by_cases hk : k2 = k
    · rwa [if_pos hk] at h ⊢
    · rw [if_neg hk] at h ⊢
      exact ih h

theorem tableLookup_append_single {t : List ((String × String) × Package)}
    {k : String × String} (h : tableLookup t k = none) (k2 : String × String) (p : Package) :
    tableLookup (t ++ [(k2, p)]) k = if k2 = k then some p else none := by
  induction t with
  | nil => rfl
  | cons kp rest ih =>
    obtain ⟨k3, p3⟩ := kp
    rw [tableLookup] at h
    rw [List.cons_append, tableLookup]
    by_cases hk : k3 = k
    · rw [if_pos hk] at h
      cases h
    · rw [if_neg hk] at h ⊢
      exact ih h

theorem tableLookup_update_self {t : List ((String × String) × Package)}
    {k : String × String} {e : Package} (h : tableLookup t k = some e) (p : Package) :
    tableLookup (tableUpdate t k p) k = some p := by
  induction t with
  | nil => cases h
  | cons kp rest ih =>
    obtain ⟨k2, p2⟩ := kp
    rw [tableLookup] at h
    rw [tableUpdate]
    by_cases hk : k2 = k
    · rw [if_pos hk, tableLookup, if_pos hk]
    · rw [if_neg hk] at h
      rw [if_neg hk, tableLookup, if_neg hk]
      exact ih h

theorem tableLookup_update_ne {t : List ((String × String) × Package)}
    {k k2 : String × String} (hne : k2 ≠ k) (p : Package) :
    tableLookup (tableUpdate t k2 p) k = tableLookup t k := by
  induction t with
  | nil => rfl
  | cons kp rest ih =>
    obtain ⟨k3, p3⟩ := kp
    rw [tableUpdate]
    by_cases hk : k3 = k2
    · subst hk
      rw [if_pos rfl, tableLookup, tableLookup, if_neg hne, if_neg hne]
    · rw [if_neg hk, tableLookup, tableLookup]
      by_cases hk3 : k3 = k
      · rw [if_pos hk3, if_pos hk3]
      · rw [if_neg hk3, if_neg hk3]
        exact ih

theorem tableUpdate_mem {t : List ((String × String) × Package)}
    {k : String × String} {p : Package} {kp : (String × String) × Package}
    (h : kp ∈ tableUpdate t k p) : kp ∈ t ∨ kp = (k, p) := by
  induction t with
  | nil => cases h
  | cons kp2 rest ih =>
    obtain ⟨k2, p2⟩ := kp2
    rw [tableUpdate] at h
    by_cases hk : k2 = k
    · rw [if_pos hk] at h
      rcases List.mem_cons.mp h with h1 | h2
      · exact Or.inr (by rw [h1, hk])
      · exact Or.inl (List.mem_cons_of_mem _ h2)
    · rw [if_neg hk] at h
      rcases List.mem_cons.mp h with h1 | h2
      · exact Or.inl (h1 ▸ List.mem_cons_self _ _)
      · rcases ih h2 with h3 | h4
        · exact Or.inl (List.mem_cons_of_mem _ h3)
        · exact Or.inr h4

theorem accInsert_of_none {acc : MergeAcc} {p : Package}
    (h : tableLookup acc.table (keyOf p) = none) :
    accInsert acc p = ⟨acc.table ++ [(keyOf p, p)], acc.warnings⟩ := by
  simp [accInsert, h]

theorem accInsert_of_some {acc : MergeAcc} {p e : Package}
    (h : tableLookup acc.table (keyOf p) = some e) :
    accInsert acc p =
      ⟨tableUpdate acc.table (keyOf p) (merge1 e p),
        if p.version ≠ e.version then acc.warnings ++ [warnMsg e p] else acc.warnings⟩ := by
  simp [accInsert, h]

/-- The fields of a merged record that come from the first-seen record. -/
def sameCore (m f : Package) : Prop :=
  m.name = f.name ∧ m.version = f.version ∧ m.description = f.description ∧
  m.filename = f.filename ∧ m.component = f.component

theorem sameCore_refl (p : Package) : sameCore p p := ⟨rfl, rfl, rfl, rfl, rfl⟩

theorem sameCore_trans {a b c : Package} (h1 : sameCore a b) (h2 : sameCore b c) :
    sameCore a c := by
  obtain ⟨x1, x2, x3, x4, x5⟩ := h1
  obtain ⟨y1, y2, y3, y4, y5⟩ := h2
  exact ⟨x1.trans y1, x2.trans y2, x3.trans y3, x4.trans y4, x5.trans y5⟩

theorem merge1_sameCore (e p : Package) : sameCore (merge1 e p) e := by
  simp [merge1, sameCore]

theorem accInsert_lookup_ne {acc : MergeAcc} {p : Package} {k : String × String}
    (hk : keyOf p ≠ k) :
    tableLookup ((accInsert acc p).table) k = tableLookup acc.table k := by
  cases hl : tableLookup acc.table (keyOf p) with
  | none =>
    rw [accInsert_of_none hl]
    cases hlk : tableLookup acc.table k with
    | none => rw [tableLookup_append_single hlk, if_neg hk]
    | some e => rw [tableLookup_append_of_some hlk]
  | some e =>
    rw [accInsert_of_some hl]
    exact tableLookup_update_ne hk _

theorem accInsert_lookup_new {acc : MergeAcc} {p : Package}
    (h : tableLookup acc.table (keyOf p) = none) :
    tableLookup ((accInsert acc p).table) (keyOf p) = some p := by
  rw [accInsert_of_none h, tableLookup_append_single h, if_pos rfl]

theorem accInsert_lookup_old {acc : MergeAcc} {p e : Package}
    (h : tableLookup acc.table (keyOf p) = some e) :
    tableLookup ((accInsert acc p).table) (keyOf p) = some (merge1 e p) := by
  rw [accInsert_of_some h]
  exact tableLookup_update_self h _

/-- Once a key is present, the deduplication fold keeps a record for it
and never changes its name, version, description, filename or component. -/
theorem fold_preserve (pkgs : List Package) :
    ∀ (acc : MergeAcc) (k : String × String) (e : Package),
      tableLookup acc.table k = some e →
      ∃ m, tableLookup ((pkgs.foldl accInsert acc).table) k = some m ∧ sameCore m e := by
  induction pkgs with
  | nil => exact fun acc k e h => ⟨e, h, sameCore_refl e⟩
  | cons p rest ih =>
    intro acc k e h
    rw [List.foldl_cons]
    by_cases hk : keyOf p = k
    · subst hk
      obtain ⟨m, hm, hc⟩ := ih (accInsert acc p) _ (merge1 e p) (accInsert_lookup_old h)
      exact ⟨m, hm, sameCore_trans hc (merge1_sameCore e p)⟩
    · exact ih (accInsert acc p) k e (by rw [accInsert_lookup_ne hk]; exact h)

/-- The record the fold eventually stores for a fresh key has the core
fields of the first record with that key. -/
theorem fold_first (pkgs : List Package) :
    ∀ (acc : MergeAcc) (k : String × String),
      tableLookup acc.table k = none →
      ∀ m, tableLookup ((pkgs.foldl accInsert acc).table) k = some m →
      ∃ f, pkgs.find? (fun r => decide (keyOf r = k)) = some f ∧ sameCore m f := by
  induction pkgs with
  | nil =>
    intro acc k h m hm
    rw [List.foldl_nil] at hm
    rw [h] at hm
    cases hm
  | cons p rest ih =>
    intro acc k h m hm
    rw [List.foldl_cons] at hm
    by_cases hk : keyOf p = k
    · have hl' : tableLookup ((accInsert acc p).table) k = some p := by
        rw [← hk]
        exact accInsert_lookup_new (by rw [hk]; exact h)
      obtain ⟨m2, hm2, hc⟩ := fold_preserve rest _ k p hl'
      rw [hm] at hm2
      cases hm2
      refine ⟨p, ?_, hc⟩
      rw [List.find?_cons_of_pos]
      simpa using hk
    · have h' : tableLookup ((accInsert acc p).table) k = none := by
        rw [accInsert_lookup_ne hk]
        exact h
      obtain ⟨f, hf, hc⟩ := ih _ k h' m hm
      refine ⟨f, ?_, hc⟩
      rw [List.find?_cons_of_neg]
      · exact hf
      · simpa using hk

/-- Every key occurring in the input ends up in the table. -/
theorem fold_exists (pkgs : List Package) :
    ∀ (acc : MergeAcc) (q : Package), q ∈ pkgs →
      ∃ m, tableLookup ((pkgs.foldl accInsert acc).table) (keyOf q) = some m := by
  induction pkgs with
  | nil => intro acc q hq; cases hq
  | cons p rest ih =>
    intro acc q hq
    rw [List.foldl_cons]
    rcases List.mem_cons.mp hq with rfl | hq2
    · have hsome : ∃ e, tableLookup ((accInsert acc q).table) (keyOf q) = some e := by
        cases hl : tableLookup acc.table (keyOf q) with
        | none => exact ⟨q, accInsert_lookup_new hl⟩
        | some e => exact ⟨merge1 e q, accInsert_lookup_old hl⟩
      obtain ⟨e, he⟩ := hsome
      obtain ⟨m, hm, _⟩ := fold_preserve rest _ _ e he
      exact ⟨m, hm⟩
    · exact ih _ q hq2

/-- One merge step only ever appends to the warning list. -/
theorem accInsert_warnings (acc : MergeAcc) (p : Package) :
    ∃ t, (accInsert acc p).warnings = acc.warnings ++ t := by
  cases hl : tableLookup acc.table (keyOf p) with
  | none => exact ⟨[], by rw [accInsert_of_none hl]; simp⟩
  | some e =>
    rw [accInsert_of_some hl]
    by_cases hv : p.version ≠ e.version
    · exact ⟨[warnMsg e p], by simp [hv]⟩
    · exact ⟨[], by simp [hv]⟩

/-- The fold only ever appends to the warning list. -/
theorem fold_warnings (pkgs : List Package) :
    ∀ acc : MergeAcc, ∃ t, (pkgs.foldl accInsert acc).warnings = acc.warnings ++ t := by
  induction pkgs with
  | nil => exact fun acc => ⟨[], by simp⟩
  | cons p rest ih =>
    intro acc
    rw [List.foldl_cons]
    obtain ⟨t1, ht1⟩ := accInsert_warnings acc p
    obtain ⟨t2, ht2⟩ := ih (accInsert acc p)
    exact ⟨t1 ++ t2, by rw [ht2, ht1, List.append_assoc]⟩

/-- If the fold emitted no warning then every input record's version
agrees with the merged record stored for its key. -/
theorem fold_no_warn (pkgs : List Package) :
    ∀ acc : MergeAcc, (pkgs.foldl accInsert acc).warnings = acc.warnings →
      ∀ q ∈ pkgs, ∃ m, tableLookup ((pkgs.foldl accInsert acc).table) (keyOf q) = some m ∧
        m.version = q.version := by
  induction pkgs with
  | nil => intro acc _ q hq; cases hq
  | cons p rest ih =>
    intro acc hw q hq
    rw [List.foldl_cons] at hw ⊢
    obtain ⟨t1, ht1⟩ := accInsert_warnings acc p
    obtain ⟨t2, ht2⟩ := fold_warnings rest (accInsert acc p)
    rw [ht2, ht1, List.append_assoc] at hw
    have hlen := congrArg List.length hw
    simp only [List.length_append] at hlen
    have ht1nil : t1 = [] := List.length_eq_zero.mp (by omega)
    have ht2nil : t2 = [] := List.length_eq_zero.mp (by omega)
    have hw' : (rest.foldl accInsert (accInsert acc p)).warnings =
        (accInsert acc p).warnings := by
      rw [ht2, ht2nil, List.append_nil]
    rcases List.mem_cons.mp hq with rfl | hq2
    · cases hl : tableLookup acc.table (keyOf q) with
      | none =>
        obtain ⟨m, hm, hc⟩ := fold_preserve rest _ _ q (accInsert_lookup_new hl)
        exact ⟨m, hm, hc.2.1⟩
      | some e =>
        have hv : q.version = e.version := by
          by_contra hne
          rw [accInsert_of_some hl] at ht1
          simp only [if_pos hne] at ht1
          rw [ht1nil, List.append_nil] at ht1
          have := congrArg List.length ht1
          simp at this
        obtain ⟨m, hm, hc⟩ := fold_preserve rest _ _ (merge1 e q) (accInsert_lookup_old hl)
        refine ⟨m, hm, ?_⟩
        rw [hc.2.1, (merge1_sameCore e q).2.1, hv]
    · exact ih _ hw' q hq2

/-! ## Claim C6: merge frame property -/

/-- C6: folding a further record into the running record for an existing
key can only change `architecture` and `all_architectures`; the name,
version, description, filename and component of the running record are
untouched, so the merged record stored for a key keeps the core fields —
in particular the filename — of the first-parsed record with that key. -/
theorem c6_merge_frame :
    (∀ e p : Package, (merge1 e p).name = e.name ∧ (merge1 e p).version = e.version ∧
      (merge1 e p).description = e.description ∧ (merge1 e p).filename = e.filename ∧
      (merge1 e p).component = e.component) ∧
    (∀ (pkgs : List Package) (k : String × String) (m : Package),
      tableLookup (dedup pkgs).table k = some m →
      ∃ f, pkgs.find? (fun r => decide (keyOf r = k)) = some f ∧ m.name = f.name ∧
        m.version = f.version ∧ m.description = f.description ∧ m.filename = f.filename ∧
        m.component = f.component) := by
  constructor
  · exact fun e p => merge1_sameCore e p
  · intro pkgs k m hm
    obtain ⟨f, hf, hc⟩ := fold_first pkgs ⟨[], []⟩ k rfl m hm
    exact ⟨f, hf, hc⟩

def c6First : Package := Package.make "alpha" "1.0" "d" "arm64" "pool/first.deb" "main" []

def c6Second : Package := Package.make "alpha" "1.0" "d" "all" "pool/second.deb" "main" []

def c6Merged : Package :=
  ⟨"alpha", "1.0", "d", "arm64", "pool/first.deb", "main", ["all", "arm64"]⟩

/-- Closed witness for C6: two records for the same key with different
filenames; the merged record keeps the first filename. -/
theorem c6_merge_frame_witness :
    tableLookup (dedup [c6First, c6Second]).table ("alpha", "main") = some c6Merged ∧
    ∃ f, [c6First, c6Second].find? (fun r => decide (keyOf r = ("alpha", "main"))) = some f ∧
      c6Merged.name = f.name ∧ c6Merged.version = f.version ∧
      c6Merged.description = f.description ∧ c6Merged.filename = f.filename ∧
      c6Merged.component = f.component :=
  ⟨by decide, c6_merge_frame.2 [c6First, c6Second] ("alpha", "main") c6Merged (by decide)⟩

/-! ## Claim C3: version mismatch warns, first-seen version wins -/

/-- C3: when two records of the raw list share a `(name, component)` key
but carry different version strings, the merge still completes with a
record stored for that key, the warning list is non-empty, and the
stored record's version is the version of the first-seen record for the
key. -/
theorem c3_version_mismatch (pkgs : List Package) (p q : Package)
    (hp : p ∈ pkgs) (hq : q ∈ pkgs) (hk : keyOf p = keyOf q)
    (hv : p.version ≠ q.version) :
    (dedup pkgs).warnings ≠ [] ∧
    ∃ f m, pkgs.find? (fun r => decide (keyOf r = keyOf p)) = some f ∧
      tableLookup (dedup pkgs).table (keyOf p) = some m ∧ m.version = f.version := by
  constructor
  · intro hwnil
    have hw : (pkgs.foldl accInsert ⟨[], []⟩).warnings = (⟨[], []⟩ : MergeAcc).warnings :=
      hwnil
    obtain ⟨mp, hmp, hvp⟩ := fold_no_warn pkgs ⟨[], []⟩ hw p hp
    obtain ⟨mq, hmq, hvq⟩ := fold_no_warn pkgs ⟨[], []⟩ hw q hq
    rw [hk] at hmp
    rw [hmp] at hmq
    cases hmq
    exact hv (by rw [← hvp, ← hvq])
  · obtain ⟨m, hm⟩ := fold_exists pkgs ⟨[], []⟩ p hp
    obtain ⟨f, hf, hc⟩ := fold_first pkgs ⟨[], []⟩ (keyOf p) rfl m hm
    exact ⟨f, m, hf, hm, hc.2.1⟩

def c3First : Package := Package.make "beta" "1.0" "d" "arm64" "pool/beta.deb" "main" []

def c3Second : Package := Package.make "beta" "2.0" "d" "all" "pool/beta.deb" "main" []

/-- Closed witness for C3: versions `1.0` and `2.0` for the same key. -/
theorem c3_version_mismatch_witness :
    (c3First ∈ [c3First, c3Second] ∧ c3Second ∈ [c3First, c3Second] ∧
      keyOf c3First = keyOf c3Second ∧ c3First.version ≠ c3Second.version) ∧
    (dedup [c3First, c3Second]).warnings ≠ [] :=
  ⟨⟨by decide, by decide, by decide, by decide⟩,
    (c3_version_mismatch [c3First, c3Second] c3First c3Second (by decide) (by decide)
      (by decide) (by decide)).1⟩

/-! ## Claim C9: the `all_architectures` invariant -/

/-- The invariant: `all_architectures` is non-empty, duplicate-free and
contains the primary architecture. -/
def archInv (p : Package) : Prop :=
  p.all_architectures ≠ [] ∧ p.all_architectures.Nodup ∧
  p.architecture ∈ p.all_architectures

theorem archInv_buildPackage (m : FieldMap) (comp : String) : archInv (buildPackage m comp) := by
  refine ⟨by simp [buildPackage, Package.make], ?_, ?_⟩ <;>
    simp [buildPackage, Package.make, archInv]

theorem archInv_merge1 {e : Package} (p : Package) (h : archInv e) : archInv (merge1 e p) := by
  obtain ⟨hne, hnd, hmem⟩ := h
  by_cases hc : e.all_architectures.contains p.architecture = true
  · have hpm : p.architecture ∈ e.all_architectures := by simpa using hc
    refine ⟨?_, ?_, ?_⟩ <;> simp only [merge1, hc, if_true]
    · exact hne
    · exact hnd
    · simp only [get_preferred_architecture]
      split
      · exact hmem
      · exact hpm
  · have hc2 : e.all_architectures.contains p.architecture = false := by simpa using hc
    have hnm : p.architecture ∉ e.all_architectures := by simpa using hc2
    have hperm := sortByKey_perm strKey (e.all_architectures ++ [p.architecture])
    refine ⟨?_, ?_, ?_⟩ <;>
      simp only [merge1, hc2, Bool.false_eq_true, if_false]
    · intro h0
      have hlen := hperm.length_eq
      rw [h0] at hlen
      simp at hlen
    · refine hperm.symm.nodup ?_
      rw [List.nodup_append]
      refine ⟨hnd, List.nodup_singleton _, ?_⟩
      simpa [List.disjoint_singleton] using hnm
    · simp only [get_preferred_architecture]
      rw [mem_sortByKey, List.mem_append]
      split
      · exact Or.inl hmem
      · exact Or.inr (List.mem_singleton_self _)

/-- Every branch of the line loop leaves the emitted list unchanged or
appends the package built from the current stanza. -/
theorem processLine_packages_cases (comp : String) (st : ParseState) (l : String) :
    (processLine comp st l).packages = st.packages ∨
    (processLine comp st l).packages = st.packages ++ [buildPackage st.current comp] := by
  by_cases h1 : pyRstrip l = ""
  · by_cases h2 : st.current.isEmpty
    · left
      simp [processLine, h1, h2]
    · by_cases h3 : hasRequired st.current
      · right
        simp [processLine, h1, h2, h3]
      · left
        simp [processLine, h1, h2, h3]
  · by_cases h2 : (startsWithSpaceTab (pyRstrip l) && lastKeyTruthy st.lastKey) = true
    · left
      simp [processLine, h1, h2]
    · by_cases h3 : containsColon (pyRstrip l) = true
      · left
        simp [processLine, h1, h2, h3]
      · left
        simp [processLine, h1, h2, h3]

theorem foldParse_archInv (comp : String) :
    ∀ (lines : List String) (st : ParseState),
      (∀ p ∈ st.packages, archInv p) →
      ∀ p ∈ (lines.foldl (processLine comp) st).packages, archInv p := by
  intro lines
  induction lines with
  | nil => intro st h; simpa using h
  | cons l rest ih =>
    intro st h p hp
    rw [List.foldl_cons] at hp
    refine ih (processLine comp st l) ?_ p hp
    intro q hq
    rcases processLine_packages_cases comp st l with hcase | hcase <;> rw [hcase] at hq
    · exact h q hq
    · rcases List.mem_append.mp hq with hq1 | hq2
      · exact h q hq1
      · rw [List.mem_singleton.mp hq2]
        exact archInv_buildPackage st.current comp

theorem parsePackagesLines_archInv (lines : List String) (comp : String) :
    ∀ p ∈ parsePackagesLines lines comp, archInv p := by
  intro p hp
  unfold parsePackagesLines finalize at hp
  have hfold := foldParse_archInv comp lines ⟨[], [], none⟩ (by simp)
  split at hp
  · rcases List.mem_append.mp hp with h1 | h2
    · exact hfold p h1
    · rw [List.mem_singleton.mp h2]
      exact archInv_buildPackage _ comp
  · exact hfold p hp

theorem collectArchFold_archInv (items : List DistItem) (component : String) :
    ∀ (archs : List String) (acc : List Package), (∀ p ∈ acc, archInv p) →
      ∀ p ∈ archs.foldl (collectArchStep items component) acc, archInv p := by
  intro archs
  induction archs with
  | nil => intro acc h; simpa using h
  | cons a rest ih =>
    intro acc h p hp
    rw [List.foldl_cons] at hp
    refine ih _ ?_ p hp
    intro q hq
    unfold collectArchStep at hq
    cases hfile : packagesFileFor items component a with
    | none =>
      rw [hfile] at hq
      exact h q hq
    | some lines =>
      rw [hfile] at hq
      rcases List.mem_append.mp hq with h1 | h2
      · exact h q h1
      · exact parsePackagesLines_archInv lines component q h2

theorem collectPackages_archInv (items : List DistItem) (comps : List String) :
    ∀ p ∈ collectPackages items comps, archInv p := by
  unfold collectPackages
  have hgen : ∀ (cs : List String) (acc : List Package), (∀ p ∈ acc, archInv p) →
      ∀ p ∈ cs.foldl (collectCompStep items) acc, archInv p := by
    intro cs
    induction cs with
    | nil => intro acc h; simpa using h
    | cons c rest ih =>
      intro acc h p hp
      rw [List.foldl_cons] at hp
      refine ih _ ?_ p hp
      intro q hq
      exact collectArchFold_archInv items c SUPPORTED_ARCHITECTURES acc h q hq
  exact hgen comps [] (by simp)

theorem fold_table_archInv (pkgs : List Package) :
    ∀ acc : MergeAcc, (∀ kp ∈ acc.table, archInv kp.2) → (∀ p ∈ pkgs, archInv p) →
      ∀ kp ∈ (pkgs.foldl accInsert acc).table, archInv kp.2 := by
  induction pkgs with
  | nil => intro acc hacc _; simpa using hacc
  | cons p rest ih =>
    intro acc hacc hpkgs
    rw [List.foldl_cons]
    refine ih _ ?_ (fun q hq => hpkgs q (List.mem_cons_of_mem _ hq))
    intro kp hkp
    cases hl : tableLookup acc.table (keyOf p) with
    | none =>
      rw [accInsert_of_none hl] at hkp
      rcases List.mem_append.mp hkp with h1 | h2
      · exact hacc kp h1
      · rw [List.mem_singleton.mp h2]
        exact hpkgs p (List.mem_cons_self _ _)
    | some e =>
      rw [accInsert_of_some hl] at hkp
      rcases tableUpdate_mem hkp with h1 | h2
      · exact hacc kp h1
      · rw [h2]
        exact archInv_merge1 p (hacc (keyOf p, e) (tableLookup_mem hl))

theorem scanDistEntry_archInv (e : DistEntry) :
    ∀ p ∈ (scanDistEntry e).packages, archInv p := by
  intro p hp
  simp only [scanDistEntry] at hp
  rw [mem_sortByKey] at hp
  obtain ⟨kp, hkp, hpe⟩ := List.mem_map.mp hp
  rw [← hpe]
  exact fold_table_archInv _ ⟨[], []⟩ (by simp) (collectPackages_archInv _ _) kp hkp

/-- C9: `all_architectures` is non-empty, duplicate-free and contains
the primary architecture: this holds for every record the package
builder constructs, is preserved by every merge step (even when the same
`(name, component, architecture)` combination recurs), and therefore
holds for every package of every Distribution a scan produces. -/
theorem c9_all_architectures_invariant :
    (∀ (m : FieldMap) (comp : String), archInv (buildPackage m comp)) ∧
    (∀ e p : Package, archInv e → archInv (merge1 e p)) ∧
    (∀ repo : RepoDir, ∀ d ∈ scan_distributions repo, ∀ p ∈ d.packages, archInv p) := by
  refine ⟨archInv_buildPackage, fun e p h => archInv_merge1 p h, ?_⟩
  intro repo d hd p hp
  unfold scan_distributions at hd
  split at hd
  · obtain ⟨ent, _, hde⟩ := List.mem_map.mp hd
    rw [← hde] at hp
    exact scanDistEntry_archInv ent p hp
  · cases hd

/-- Closed witness for C9: a freshly built record and a merge step that
re-sees the same architecture. -/
theorem c9_all_architectures_invariant_witness :
    archInv (Package.make "x" "1" "d" "arm64" "f" "main" []) ∧
    archInv (merge1 (Package.make "x" "1" "d" "arm64" "f" "main" [])
      (Package.make "x" "1" "d" "arm64" "f" "main" [])) :=
  ⟨⟨by decide, by decide, by decide⟩,
    c9_all_architectures_invariant.2.1 _ _ ⟨by decide, by decide, by decide⟩⟩

/-! ## Claim C8: absent input is never an error -/

theorem packagesFileFor_none {items : List DistItem}
    (H : ∀ it ∈ items, ∀ b ∈ it.binaryDirs, b.arch ∈ SUPPORTED_ARCHITECTURES →
      b.packagesFile = none)
    (c a : String) (ha : a ∈ SUPPORTED_ARCHITECTURES) :
    packagesFileFor items c a = none := by
  cases hit : items.find? (fun it => it.name == c) with
  | none => simp [packagesFileFor, hit]
  | some it =>
    cases hb : it.binaryDirs.find? (fun b => b.arch == a) with
    | none => simp [packagesFileFor, hit, hb]
    | some b =>
      have hmem_it : it ∈ items := List.mem_of_find?_eq_some hit
      have hmem_b : b ∈ it.binaryDirs := List.mem_of_find?_eq_some hb
      have harch : b.arch = a := by
        have := List.find?_some hb
        simpa using this
      have hnone := H it hmem_it b hmem_b (harch ▸ ha)
      simp [packagesFileFor, hit, hb, hnone]

theorem archFold_id {items : List DistItem} {c : String} :
    ∀ (archs : List String) (acc : List Package),
      (∀ a ∈ archs, packagesFileFor items c a = none) →
      archs.foldl (collectArchStep items c) acc = acc := by
  intro archs
  induction archs with
  | nil => intro acc _; rfl
  | cons a rest ih =>
    intro acc h
    rw [List.foldl_cons]
    have hstep : collectArchStep items c acc a = acc := by
      unfold collectArchStep
      rw [h a (List.mem_cons_self _ _)]
    rw [hstep]
    exact ih acc (fun a2 ha2 => h a2 (List.mem_cons_of_mem _ ha2))

theorem collectPackages_empty {items : List DistItem}
    (H : ∀ it ∈ items, ∀ b ∈ it.binaryDirs, b.arch ∈ SUPPORTED_ARCHITECTURES →
      b.packagesFile = none)
    (comps : List String) : collectPackages items comps = [] := by
  unfold collectPackages
  have hgen : ∀ (cs : List String) (acc : List Package),
      cs.foldl (collectCompStep items) acc = acc := by
    intro cs
    induction cs with
    | nil => intro acc; rfl
    | cons c rest ih =>
      intro acc
      rw [List.foldl_cons]
      have : collectCompStep items acc c = acc :=
        archFold_id SUPPORTED_ARCHITECTURES acc
          (fun a ha => packagesFileFor_none H c a ha)
      rw [this]
      exact ih acc
  exact hgen comps []

/-- C8: absent input is not an error: a root without `dists` scans to an
empty catalog; a missing `Packages` file parses to the empty list; and a
distribution whose component directories exist but hold no `Packages`
file for any supported architecture still yields a Distribution with
`package_count = 0` and the non-empty fallback component list. -/
theorem c8_absent_input :
    (∀ repo : RepoDir, repo.distsExists = false → scan_distributions repo = []) ∧
    (∀ comp : String, parse_packages_file none comp = []) ∧
    (∀ e : DistEntry,
      (∃ it ∈ e.items, itemIsComponent it = true) →
      (∀ it ∈ e.items, ∀ b ∈ it.binaryDirs, b.arch ∈ SUPPORTED_ARCHITECTURES →
        b.packagesFile = none) →
      (scanDistEntry e).package_count = 0 ∧ (scanDistEntry e).components = ["main"] ∧
      (scanDistEntry e).components ≠ []) := by
  refine ⟨?_, fun _ => rfl, ?_⟩
  · intro repo h
    simp [scan_distributions, h]
  · intro e _ H
    have hpk : (scanDistEntry e).packages = [] := by
      simp only [scanDistEntry]
      rw [collectPackages_empty H]
      rfl
    have hcomp : (scanDistEntry e).components = ["main"] := by
      simp only [Distribution.components, hpk]
      rfl
    refine ⟨?_, hcomp, ?_⟩
    · simp only [Distribution.package_count, hpk]
      rfl
    · rw [hcomp]
      simp

def c8Item : DistItem := ⟨"main", true, [⟨"arm64", none⟩]⟩

def c8Entry : DistEntry := ⟨"stable", true, [c8Item]⟩

/-- Closed witness for C8: a distribution with an empty `main` component
whose `binary-arm64` directory exists without a `Packages` file. -/
theorem c8_absent_input_witness :
    (∃ it ∈ c8Entry.items, itemIsComponent it = true) ∧
    (scanDistEntry c8Entry).package_count = 0 :=
  ⟨⟨c8Item, by decide, by decide⟩,
    (c8_absent_input.2.2 c8Entry ⟨c8Item, by decide, by decide⟩
      (by decide)).1⟩

/-! ## Claim C5: continuation joining -/

theorem fmLookup_fmInsert_self (m : FieldMap) (k v : String) :
    fmLookup (fmInsert m k v) k = some v := by
  induction m with
  | nil => simp [fmInsert, fmLookup]
  | cons kv rest ih =>
    obtain ⟨k2, v2⟩ := kv
    rw [fmInsert]
    by_cases hk : k2 = k
    · rw [if_pos hk, fmLookup, if_pos hk]
    · rw [if_neg hk, fmLookup, if_neg hk]
      exact ih

theorem fmLookup_fmAppendTo_self {m : FieldMap} {k w : String}
    (h : fmLookup m k = some w) (f : String) :
    fmLookup (fmAppendTo m k f) k = some (w ++ " " ++ f) := by
  induction m with
  | nil => cases h
  | cons kv rest ih =>
    obtain ⟨k2, v2⟩ := kv
    rw [fmLookup] at h
    rw [fmAppendTo]
    by_cases hk : k2 = k
    · rw [if_pos hk] at h
      cases h
      rw [if_pos hk, fmLookup, if_pos hk]
    · rw [if_neg hk] at h
      rw [if_neg hk, fmLookup, if_neg hk]
      exact ih h

theorem fmLookup_fmAppendTo_ne {m : FieldMap} {k k2 : String} (hne : k2 ≠ k) (f : String) :
    fmLookup (fmAppendTo m k f) k2 = fmLookup m k2 := by
  induction m with
  | nil => rfl
  | cons kv rest ih =>
    obtain ⟨k3, v3⟩ := kv
    rw [fmAppendTo]
    by_cases hk : k3 = k
    · rw [if_pos hk, fmLookup, fmLookup]
      have hk3 : k3 ≠ k2 := by rw [hk]; exact fun h => hne h.symm
      rw [if_neg hk3, if_neg hk3]
    · rw [if_neg hk, fmLookup, fmLookup]
      by_cases hk3 : k3 = k2
      · rw [if_pos hk3, if_pos hk3]
      · rw [if_neg hk3, if_neg hk3]
        exact ih

/-- `v` followed by each fragment, with single separating spaces. -/
def joinFrags (v : String) (frags : List String) : String :=
  frags.foldl (fun a f => a ++ " " ++ f) v

/-- A non-blank line starting with space or tab, with a truthy
`last_key`, takes the continuation branch. -/
theorem processLine_continuation (comp : String) {st : ParseState} {l k : String}
    (hlk : st.lastKey = some k) (hk : k ≠ "")
    (hnb : pyRstrip l ≠ "") (hws : startsWithSpaceTab (pyRstrip l) = true) :
    processLine comp st l =
      { st with current := fmAppendTo st.current k (pyStrip (pyRstrip l)) } := by
  have htruthy : lastKeyTruthy (some k) = true := by
    simpa [lastKeyTruthy] using hk
  simp [processLine, hnb, hws, hlk, htruthy]

theorem contFold (comp : String) :
    ∀ (ls : List String) (st : ParseState) (k v : String),
      st.lastKey = some k → k ≠ "" → fmLookup st.current k = some v →
      (∀ l ∈ ls, pyRstrip l ≠ "" ∧ startsWithSpaceTab (pyRstrip l) = true) →
      (ls.foldl (processLine comp) st).lastKey = some k ∧
      (ls.foldl (processLine comp) st).packages = st.packages ∧
      fmLookup (ls.foldl (processLine comp) st).current k =
        some (joinFrags v (ls.map (fun l => pyStrip (pyRstrip l)))) ∧
      (∀ k2, k2 ≠ k →
        fmLookup (ls.foldl (processLine comp) st).current k2 = fmLookup st.current k2) := by
  intro ls
  induction ls with
  | nil =>
    intro st k v hlk _ hv _
    exact ⟨hlk, rfl, hv, fun _ _ => rfl⟩
  | cons l rest ih =>
    intro st k v hlk hk hv hall
    obtain ⟨hnb, hws⟩ := hall l (List.mem_cons_self _ _)
    have hstep := processLine_continuation comp hlk hk hnb hws
    rw [List.foldl_cons, hstep]
    obtain ⟨ha, hb, hc, hd⟩ :=
      ih { st with current := fmAppendTo st.current k (pyStrip (pyRstrip l)) } k
        (v ++ " " ++ pyStrip (pyRstrip l)) hlk hk
        (fmLookup_fmAppendTo_self hv (pyStrip (pyRstrip l)))
        (fun l2 hl2 => hall l2 (List.mem_cons_of_mem _ hl2))
    refine ⟨ha, hb, ?_, ?_⟩
    · rw [hc]
      rfl
    · intro k2 hk2
      rw [hd k2 hk2]
      exact fmLookup_fmAppendTo_ne hk2 _

/-- C5: a `key: value` line followed by continuation lines (non-blank,
starting with space or tab) parses to a single field for that key whose
value is the original value joined with each line's trimmed content, in
order, with exactly one space between consecutive fragments; no package
is emitted along the way. -/
theorem c5_continuation_joining (comp : String) (st0 : ParseState) (keyline : String)
    (ls : List String)
    (h1 : pyRstrip keyline ≠ "")
    (h2 : startsWithSpaceTab (pyRstrip keyline) = false)
    (h3 : containsColon (pyRstrip keyline) = true)
    (h4 : pyStrip (partitionColon (pyRstrip keyline)).1 ≠ "")
    (h5 : ∀ l ∈ ls, pyRstrip l ≠ "" ∧ startsWithSpaceTab (pyRstrip l) = true) :
    fmLookup ((ls.foldl (processLine comp) (processLine comp st0 keyline)).current)
        (pyStrip (partitionColon (pyRstrip keyline)).1) =
      some (joinFrags (pyStrip (partitionColon (pyRstrip keyline)).2)
        (ls.map (fun l => pyStrip (pyRstrip l)))) ∧
    (ls.foldl (processLine comp) (processLine comp st0 keyline)).packages =
      st0.packages := by
  have hkey : processLine comp st0 keyline =
      { st0 with
        current := fmInsert st0.current (pyStrip (partitionColon (pyRstrip keyline)).1)
          (pyStrip (partitionColon (pyRstrip keyline)).2),
        lastKey := some (pyStrip (partitionColon (pyRstrip keyline)).1) } := by
    simp [processLine, h1, h2, h3]
  obtain ⟨_, hb, hc, _⟩ := contFold comp ls (processLine comp st0 keyline)
    (pyStrip (partitionColon (pyRstrip keyline)).1)
    (pyStrip (partitionColon (pyRstrip keyline)).2)
    (by rw [hkey]) h4
    (by rw [hkey]; exact fmLookup_fmInsert_self _ _ _) h5
  refine ⟨hc, ?_⟩
  rw [hb, hkey]

/-- Closed witness for C5: `Description: does` followed by the
continuation lines `" more"` and then a tab-indented `"lines"`. -/
theorem c5_continuation_joining_witness :
    (pyRstrip "Description: does" ≠ "" ∧
      startsWithSpaceTab (pyRstrip "Description: does") = false ∧
      containsColon (pyRstrip "Description: does") = true ∧
      pyStrip (partitionColon (pyRstrip "Description: does")).1 ≠ "") ∧
    fmLookup ((([" more", "\tlines"] : List String).foldl (processLine "main")
        (processLine "main" ⟨[], [], none⟩ "Description: does")).current)
        (pyStrip (partitionColon (pyRstrip "Description: does")).1) =
      some (joinFrags (pyStrip (partitionColon (pyRstrip "Description: does")).2)
        (([" more", "\tlines"] : List String).map (fun l => pyStrip (pyRstrip l)))) :=
  ⟨⟨by decide, by decide, by decide, by decide⟩,
    (c5_continuation_joining "main" ⟨[], [], none⟩ "Description: does" [" more", "\tlines"]
      (by decide) (by decide) (by decide) (by decide)
      (by decide)).1⟩

/-! ## Claim C7: sorted, deterministic output

The scan's only contact with filesystem enumeration order is
`dists`-entry iteration (explicitly sorted) and component discovery
(canonicalised by the component sort); everything downstream runs in the
fixed architecture order. We prove the output package lists sorted and
the whole scan invariant under permuting either directory listing. -/

theorem sorted_key_perm_eq {α β : Type} [LinearOrder β] (key : α → β) :
    ∀ l1 l2 : List α, List.Perm l1 l2 → l1.Sorted (keyLe key) → l2.Sorted (keyLe key) →
      (l1.map key).Nodup → l1 = l2 := by
  intro l1
  induction l1 with
  | nil =>
    intro l2 hp _ _ _
    exact (hp.symm.eq_nil).symm
  | cons a t1 ih =>
    intro l2 hp hs1 hs2 hnd
    cases l2 with
    | nil => cases hp.eq_nil
    | cons b t2 =>
      have hain : a ∈ b :: t2 := hp.mem_iff.mp (List.mem_cons_self a t1)
      have hbin : b ∈ a :: t1 := hp.mem_iff.mpr (List.mem_cons_self b t2)
      have hle1 : keyLe key a b := by
        rcases List.mem_cons.mp hbin with h | hb
        · rw [h]
          exact le_refl _
        · exact (List.sorted_cons.mp hs1).1 b hb
      have hle2 : keyLe key b a := by
        rcases List.mem_cons.mp hain with h | ha2
        · rw [h]
          exact le_refl _
        · exact (List.sorted_cons.mp hs2).1 a ha2
      have hkey : key a = key b := le_antisymm hle1 hle2
      have hab : a = b := by
        rcases List.mem_cons.mp hain with h | ha2
        · exact h
        · exfalso
          have hnd2 : ((b :: t2).map key).Nodup := ((hp.map key).nodup_iff).mp hnd
          rw [List.map_cons, List.nodup_cons] at hnd2
          exact hnd2.1 (hkey ▸ List.mem_map_of_mem key ha2)
      subst hab
      have hp' : List.Perm t1 t2 := hp.cons_inv
      have hnd' : (t1.map key).Nodup := by
        rw [List.map_cons, List.nodup_cons] at hnd
        exact hnd.2
      rw [ih t2 hp' hs1.of_cons hs2.of_cons hnd']

theorem sortByKey_eq_of_perm {α β : Type} [LinearOrder β] (key : α → β) {l1 l2 : List α}
    (hp : List.Perm l1 l2) (hnd : (l1.map key).Nodup) :
    sortByKey key l1 = sortByKey key l2 := by
  refine sorted_key_perm_eq key _ _ ?_ (sortByKey_sorted key l1) (sortByKey_sorted key l2) ?_
  · exact (sortByKey_perm key l1).trans (hp.trans (sortByKey_perm key l2).symm)
  · exact (((sortByKey_perm key l1).map key).nodup_iff).mpr hnd

theorem strKey_injective : Function.Injective strKey := by
  intro s t h
  cases s
  cases t
  exact congrArg String.mk h

theorem known_findIdx (c : String) :
    known_components.findIdx? (fun k => k == c) =
      if c = "main" then some 0 else if c = "hatlabs" then some 1 else none := by
  by_cases h1 : c = "main"
  · subst h1
    decide
  · by_cases h2 : c = "hatlabs"
    · subst h2
      decide
    · rw [if_neg h1, if_neg h2]
      have hm : (("main" : String) == c) = false := by simp [Ne.symm h1]
      have hh : (("hatlabs" : String) == c) = false := by simp [Ne.symm h2]
      simp [known_components, List.findIdx?, hm, hh]

theorem componentKey_eq (c : String) :
    componentKey c = if c = "main" then toLex (Sum.inl 0)
      else if c = "hatlabs" then toLex (Sum.inl 1) else toLex (Sum.inr (strKey c)) := by
  unfold componentKey
  rw [known_findIdx c]
  by_cases h1 : c = "main"
  · simp [h1]
  · by_cases h2 : c = "hatlabs"
    · simp [h1, h2]
    · simp [h1, h2]

theorem componentKey_injective : Function.Injective componentKey := by
  intro a b h
  rw [componentKey_eq a, componentKey_eq b] at h
  by_cases ha1 : a = "main"
  · rw [if_pos ha1] at h
    by_cases hb1 : b = "main"
    · rw [ha1, hb1]
    · rw [if_neg hb1] at h
      by_cases hb2 : b = "hatlabs"
      · rw [if_pos hb2] at h
        exact absurd (Sum.inl.inj (toLex_inj.mp h)) (by decide)
      · rw [if_neg hb2] at h
        cases toLex_inj.mp h
  · rw [if_neg ha1] at h
    by_cases ha2 : a = "hatlabs"
    · rw [if_pos ha2] at h
      by_cases hb1 : b = "main"
      · rw [if_pos hb1] at h
        exact absurd (Sum.inl.inj (toLex_inj.mp h)) (by decide)
      · rw [if_neg hb1] at h
        by_cases hb2 : b = "hatlabs"
        · rw [ha2, hb2]
        · rw [if_neg hb2] at h
          cases toLex_inj.mp h
    · rw [if_neg ha2] at h
      by_cases hb1 : b = "main"
      · rw [if_pos hb1] at h
        cases toLex_inj.mp h
      · rw [if_neg hb1] at h
        by_cases hb2 : b = "hatlabs"
        · rw [if_pos hb2] at h
          cases toLex_inj.mp h
        · rw [if_neg hb2] at h
          exact strKey_injective (Sum.inr.inj (toLex_inj.mp h))

theorem find_name_eq_of_perm {l1 l2 : List DistItem} (hp : List.Perm l1 l2)
    (hnd : (l1.map DistItem.name).Nodup) (n : String) :
    l1.find? (fun it => it.name == n) = l2.find? (fun it => it.name == n) := by
  cases h1 : l1.find? (fun it => it.name == n) with
  | none =>
    cases h2 : l2.find? (fun it => it.name == n) with
    | none => rfl
    | some it =>
      exact absurd (List.find?_some h2)
        (by simpa using List.find?_eq_none.mp h1 it (hp.mem_iff.mpr
          (List.mem_of_find?_eq_some h2)))
  | some it =>
    have hmem1 : it ∈ l1 := List.mem_of_find?_eq_some h1
    have hpred1 : it.name = n := by simpa using List.find?_some h1
    cases h2 : l2.find? (fun it => it.name == n) with
    | none =>
      exact absurd (by simpa using hpred1)
        (List.find?_eq_none.mp h2 it (hp.mem_iff.mp hmem1))
    | some it2 =>
      have hmem2 : it2 ∈ l1 := hp.mem_iff.mpr (List.mem_of_find?_eq_some h2)
      have hpred2 : it2.name = n := by simpa using List.find?_some h2
      rw [List.inj_on_of_nodup_map hnd hmem1 hmem2 (by rw [hpred1, hpred2])]

theorem packagesFileFor_eq_of_perm {l1 l2 : List DistItem} (hp : List.Perm l1 l2)
    (hnd : (l1.map DistItem.name).Nodup) (c a : String) :
    packagesFileFor l1 c a = packagesFileFor l2 c a := by
  unfold packagesFileFor
  rw [find_name_eq_of_perm hp hnd c]

theorem archFold_congr {l1 l2 : List DistItem} {c : String}
    (h : ∀ a, packagesFileFor l1 c a = packagesFileFor l2 c a) :
    ∀ (archs : List String) (acc : List Package),
      archs.foldl (collectArchStep l1 c) acc = archs.foldl (collectArchStep l2 c) acc := by
  intro archs
  induction archs with
  | nil => intro acc; rfl
  | cons a rest ih =>
    intro acc
    rw [List.foldl_cons, List.foldl_cons]
    have : collectArchStep l1 c acc a = collectArchStep l2 c acc a := by
      unfold collectArchStep
      rw [h a]
    rw [this]
    exact ih _

theorem collectPackages_congr {l1 l2 : List DistItem}
    (h : ∀ c a, packagesFileFor l1 c a = packagesFileFor l2 c a) (comps : List String) :
    collectPackages l1 comps = collectPackages l2 comps := by
  unfold collectPackages
  have hgen : ∀ (cs : List String) (acc : List Package),
      cs.foldl (collectCompStep l1) acc = cs.foldl (collectCompStep l2) acc := by
    intro cs
    induction cs with
    | nil => intro acc; rfl
    | cons c rest ih =>
      intro acc
      rw [List.foldl_cons, List.foldl_cons]
      have : collectCompStep l1 acc c = collectCompStep l2 acc c :=
        archFold_congr (fun a => h c a) SUPPORTED_ARCHITECTURES acc
      rw [this]
      exact ih _
  exact hgen comps []

theorem discoverComponents_nodup {l : List DistItem}
    (hnd : (l.map DistItem.name).Nodup) : (discoverComponents l).Nodup := by
  unfold discoverComponents
  exact hnd.sublist ((List.filter_sublist l).map DistItem.name)

theorem scanDistEntry_perm_items (n : String) (b : Bool) (l1 l2 : List DistItem)
    (hp : List.Perm l1 l2) (hnd : (l1.map DistItem.name).Nodup) :
    scanDistEntry ⟨n, b, l1⟩ = scanDistEntry ⟨n, b, l2⟩ := by
  have hcperm : List.Perm (discoverComponents l1) (discoverComponents l2) :=
    (hp.filter itemIsComponent).map DistItem.name
  have hcnodup : ((discoverComponents l1).map componentKey).Nodup :=
    (discoverComponents_nodup hnd).map componentKey_injective
  have hcomp : sortByKey componentKey (discoverComponents l1) =
      sortByKey componentKey (discoverComponents l2) :=
    sortByKey_eq_of_perm componentKey hcperm hcnodup
  have hcollect : collectPackages l1 (sortByKey componentKey (discoverComponents l1)) =
      collectPackages l2 (sortByKey componentKey (discoverComponents l2)) := by
    rw [← hcomp]
    exact collectPackages_congr (packagesFileFor_eq_of_perm hp hnd) _
  simp only [scanDistEntry]
  rw [hcollect]

/-- C7: every Distribution's package list is sorted by the
`(component, name)` key, and the scan is deterministic in its input: its
result is unchanged under permuting the `dists` directory listing or any
distribution's directory listing (the orders the filesystem does not
fix), given the directory entries' distinct names. -/
theorem c7_deterministic_sorted_output :
    (∀ repo : RepoDir, ∀ d ∈ scan_distributions repo, d.packages.Sorted (keyLe pkgSortKey)) ∧
    (∀ repo1 repo2 : RepoDir, repo1.distsExists = repo2.distsExists →
      List.Perm repo1.distEntries repo2.distEntries →
      (repo1.distEntries.map DistEntry.name).Nodup →
      scan_distributions repo1 = scan_distributions repo2) ∧
    (∀ (n : String) (b : Bool) (l1 l2 : List DistItem), List.Perm l1 l2 →
      (l1.map DistItem.name).Nodup →
      scanDistEntry ⟨n, b, l1⟩ = scanDistEntry ⟨n, b, l2⟩) := by
  refine ⟨?_, ?_, scanDistEntry_perm_items⟩
  · intro repo d hd
    unfold scan_distributions at hd
    split at hd
    · obtain ⟨ent, _, hde⟩ := List.mem_map.mp hd
      rw [← hde]
      exact sortByKey_sorted pkgSortKey _
    · cases hd
  · intro repo1 repo2 hex hp hnd
    unfold scan_distributions
    rw [hex]
    by_cases h2 : repo2.distsExists = true
    · rw [if_pos h2, if_pos h2]
      have hknodup : (repo1.distEntries.map (fun e => strKey e.name)).Nodup := by
        have : repo1.distEntries.map (fun e => strKey e.name) =
            (repo1.distEntries.map DistEntry.name).map strKey := by
          rw [List.map_map]
          rfl
        rw [this]
        exact hnd.map strKey_injective
      rw [sortByKey_eq_of_perm (fun e => strKey e.name) hp hknodup]
    · rw [if_neg h2, if_neg h2]

def c7ItemA : DistItem := ⟨"main", true, [⟨"arm64", some exLinesArm64⟩]⟩

def c7ItemB : DistItem := ⟨"hatlabs", true, [⟨"all", some exLinesAll⟩]⟩

/-- Closed witness for C7: swapping the enumeration order of two
component directories does not change the scan of the distribution. -/
theorem c7_deterministic_sorted_output_witness :
    (List.Perm [c7ItemA, c7ItemB] [c7ItemB, c7ItemA] ∧
      (([c7ItemA, c7ItemB].map DistItem.name).Nodup)) ∧
    scanDistEntry ⟨"stable", true, [c7ItemA, c7ItemB]⟩ =
      scanDistEntry ⟨"stable", true, [c7ItemB, c7ItemA]⟩ :=
  ⟨⟨by decide, by decide⟩,
    c7_deterministic_sorted_output.2.2 "stable" true [c7ItemA, c7ItemB] [c7ItemB, c7ItemA]
      (by decide) (by decide)⟩

end AptIndex
